import Mathlib

/-!
Verification development for the task-assignment engine
(scripts/assign_tasks.py): scoring, priority ordering, and the
capacity-constrained greedy allocator, together with its suggest mode.

Loads and capacities are Python non-negative integers and are modelled as
Nat; scores are exact multiples of 0.5 (sums of 2.0, 1.5, 1.0, 0.5), which
IEEE floats represent and add exactly, so they are modelled as Rat.
External effects (the issue tracker) are modelled as parameters: a
workload map seeding current loads and a commit oracle saying whether
add_to_assignees succeeds for a given issue/username.
-/

/-- Python list-of-char prefix test used to build the substring test. -/
def listIsPref : List Char → List Char → Bool
  | [], _ => true
  | _ :: _, [] => false
  | a :: as, b :: bs => a == b && listIsPref as bs

/-- Contiguous-substring test on char lists; listIsSub n h models the
Python expression n in h on strings. -/
def listIsSub (needle : List Char) : List Char → Bool
  | [] => needle.isEmpty
  | b :: bs => listIsPref needle (b :: bs) || listIsSub needle bs

/-- Python membership needle in hay on strings (contiguous substring). -/
def strIn (needle hay : String) : Bool :=
  listIsSub needle.data hay.data

/-- Python str.lower(): all strings in this repository are ASCII, where
lowering is exactly Char.toLower applied to each character. -/
def strLower (s : String) : String :=
  String.mk (s.data.map Char.toLower)

attribute [local semireducible] Rat.add Rat.mul Rat.inv

/-- A GitHub issue as the script reads it: title, label names, optional
body text. -/
structure Issue where
  title : String
  labels : List String
  body : Option String
deriving DecidableEq

/-- An intern record from TaskAssigner.interns: username, skills,
preferences, max_tasks (capacity) and current_tasks (load). -/
structure Worker where
  username : String
  skills : List String
  preferences : List String
  max_tasks : Nat
  current_tasks : Nat
deriving DecidableEq

/-- An assignment produced by a successful commit: the issue, the chosen
username and the winning score; the run output is their list in
production order. -/
structure Assignment where
  issue : Issue
  worker : String
  score : ℚ
deriving DecidableEq

/-- Lowered body text: issue.body.lower() if issue.body else "". -/
def issue_body_lower (issue : Issue) : String :=
  match issue.body with
  | some b => strLower b
  | none => ""

/-- TaskAssigner.calculate_task_score: +2.0 per skill found as a substring
of the lowered body or equal to a lowered label, +1.5 per preference equal
to a lowered label, +1.0 / +0.5 for a high-priority / medium-priority
label, +1.0 for a good first issue label when current_tasks is 0. -/
def calculate_task_score (issue : Issue) (intern : Worker) : ℚ :=
  let issue_labels := issue.labels.map strLower
  let issue_body := issue_body_lower issue
  (2 : ℚ) * ((intern.skills.filter
      (fun skill => strIn skill issue_body || issue_labels.contains skill)).length : ℚ)
  + (3 / 2 : ℚ) * ((intern.preferences.filter
      (fun p => issue_labels.contains p)).length : ℚ)
  + (if issue_labels.contains "high-priority" then (1 : ℚ)
     else if issue_labels.contains "medium-priority" then (1 / 2 : ℚ) else 0)
  + (if issue_labels.contains "good first issue" && intern.current_tasks == 0
     then (1 : ℚ) else 0)

/-- Priority tier list of assign_tasks. -/
def priority_order : List String := ["high-priority", "medium-priority", "low-priority"]

/-- Sort key of assign_tasks: min of the tier indices of the issue's
priority labels together with len(priority_order). -/
def priorityRank (issue : Issue) : Nat :=
  ((issue.labels.filter (fun l => priority_order.contains l)).map
    (fun l => priority_order.indexOf l)).foldr min priority_order.length

/-- Stable insertion placing x before the first element of no smaller
rank, as Python's stable list.sort does with the priority key. -/
def insertByRank (x : Issue) : List Issue → List Issue
  | [] => [x]
  | y :: ys =>
    if priorityRank x ≤ priorityRank y then x :: y :: ys
    else y :: insertByRank x ys

/-- Stable sort by priority rank, modelling unassigned_issues.sort. -/
def sortByRank : List Issue → List Issue
  | [] => []
  | x :: xs => insertByRank x (sortByRank xs)

/-- Reseeding a worker's load from the authoritative workload map:
intern.current_tasks = workload.get(username, 0). -/
def reseed (workload : String → Nat) (w : Worker) : Worker :=
  { w with current_tasks := workload w.username }

/-- Inner candidate scan of assign_tasks: skip interns at capacity, keep
the first strictly best score; the accumulator starts at best_score = -1
with no best intern, and k is the index of the next worker. -/
def findBestAux (issue : Issue) :
    List Worker → Nat → Option (Nat × Worker) → ℚ → Option (Nat × Worker) × ℚ
  | [], _, bi, bs => (bi, bs)
  | w :: ws, k, bi, bs =>
    if w.max_tasks ≤ w.current_tasks then findBestAux issue ws (k + 1) bi bs
    else if bs < calculate_task_score issue w then
      findBestAux issue ws (k + 1) (some (k, w)) (calculate_task_score issue w)
    else findBestAux issue ws (k + 1) bi bs

/-- Best-intern selection for one issue over the whole intern list. -/
def findBest (issue : Issue) (interns : List Worker) : Option (Nat × Worker) × ℚ :=
  findBestAux issue interns 0 none (-1)

/-- Load increment performed after a successful commit. -/
def incLoad (w : Worker) : Worker :=
  { w with current_tasks := w.current_tasks + 1 }

/-- Main loop of assign_tasks over the sorted issues. The commit oracle c
says whether issue.add_to_assignees(username) succeeds; on failure the
exception is caught, nothing is recorded, and the loop moves on. Returns
the assignments in production order, the final intern states, and
assignments_made. -/
def assignLoop (c : Issue → String → Bool) :
    List Issue → List Worker → Nat → Nat → List Assignment × List Worker × Nat
  | [], interns, made, _ => ([], interns, made)
  | issue :: rest, interns, made, maxA =>
    if maxA ≤ made then ([], interns, made)
    else
      match findBest issue interns with
      | (some (i, w), s) =>
        if 0 < s then
          if c issue w.username then
            let r := assignLoop c rest (interns.set i (incLoad w)) (made + 1) maxA
            (⟨issue, w.username, s⟩ :: r.1, r.2)
          else assignLoop c rest interns made maxA
        else assignLoop c rest interns made maxA
      | (none, _) => assignLoop c rest interns made maxA

/-- TaskAssigner.assign_tasks: seed loads from the workload map, sort the
issues by priority rank, then run the greedy loop with the bound. -/
def assign_tasks (c : Issue → String → Bool) (workload : String → Nat)
    (issues : List Issue) (interns : List Worker) (max_assignments : Nat) :
    List Assignment × List Worker × Nat :=
  assignLoop c (sortByRank issues) (interns.map (reseed workload)) 0 max_assignments

/-- Stable descending insertion by score, modelling
suggestions.sort(key=score, reverse=True), which keeps input order on
equal scores. -/
def insertDesc (x : Worker × ℚ) : List (Worker × ℚ) → List (Worker × ℚ)
  | [] => [x]
  | y :: ys => if y.2 ≤ x.2 then x :: y :: ys else y :: insertDesc x ys

/-- Stable descending sort by score. -/
def sortDesc : List (Worker × ℚ) → List (Worker × ℚ)
  | [] => []
  | x :: xs => insertDesc x (sortDesc xs)

/-- Per-issue body of suggest_assignments: reseed every intern from the
workload map, score each, keep those below capacity, sort descending by
score and keep the top three. -/
def suggest_for (workload : String → Nat) (issue : Issue) (interns : List Worker) :
    List (Worker × ℚ) :=
  let interns2 := interns.map (reseed workload)
  let suggestions := interns2.filterMap
    (fun w => if w.current_tasks < w.max_tasks
              then some (w, calculate_task_score issue w) else none)
  (sortDesc suggestions).take 3

/-- Loop of suggest_assignments; the intern state after an issue is the
reseeded list, since the inner loop overwrites every current_tasks. -/
def suggestLoop (workload : String → Nat) :
    List Issue → List Worker → List (Issue × List (Worker × ℚ)) × List Worker
  | [], interns => ([], interns)
  | issue :: rest, interns =>
    let r := suggestLoop workload rest (interns.map (reseed workload))
    ((issue, suggest_for workload issue interns) :: r.1, r.2)

/-- TaskAssigner.suggest_assignments: print-only suggestion pass. -/
def suggest_assignments (workload : String → Nat) (issues : List Issue)
    (interns : List Worker) : List (Issue × List (Worker × ℚ)) × List Worker :=
  suggestLoop workload issues interns

example : strIn "ai" "intro to python and ai" = true := by decide
example : strIn "Python" "learn python" = false := by decide
example : strIn "" "" = true := by decide

/-- Candidate list of one scan: the below-capacity interns in iteration
order, each with its absolute index and score; this is the candidate set
from which the allocator picks and over which suggest mode ranks. -/
def availableScores (issue : Issue) : Nat → List Worker → List (Nat × Worker × ℚ)
  | _, [] => []
  | k, w :: ws =>
    if w.max_tasks ≤ w.current_tasks then availableScores issue (k + 1) ws
    else (k, w, calculate_task_score issue w) :: availableScores issue (k + 1) ws

/-- Instrumented copy of assignLoop that additionally counts how many
commits were attempted (the try block of assign_tasks), successful or
not; the first three components are exactly those of assignLoop. -/
def assignLoopA (c : Issue → String → Bool) :
    List Issue → List Worker → Nat → Nat → List Assignment × List Worker × Nat × Nat
  | [], interns, made, _ => ([], interns, made, 0)
  | issue :: rest, interns, made, maxA =>
    if maxA ≤ made then ([], interns, made, 0)
    else
      match findBest issue interns with
      | (some (i, w), s) =>
        if 0 < s then
          if c issue w.username then
            let r := assignLoopA c rest (interns.set i (incLoad w)) (made + 1) maxA
            (⟨issue, w.username, s⟩ :: r.1, r.2.1, r.2.2.1, r.2.2.2 + 1)
          else
            let r := assignLoopA c rest interns made maxA
            (r.1, r.2.1, r.2.2.1, r.2.2.2 + 1)
        else assignLoopA c rest interns made maxA
      | (none, _) => assignLoopA c rest interns made maxA

/-- Priority rank as the specification words it: the index of the first
priority tier in [high, medium, low] that occurs among the item's tags,
or the number of tiers if none does. -/
def rank_spec (issue : Issue) : Nat :=
  if issue.labels.contains "high-priority" then 0
  else if issue.labels.contains "medium-priority" then 1
  else if issue.labels.contains "low-priority" then 2
  else 3

/-- Scoring scheme exactly as the specification words it: +2.0 per skill
tag in the item's tag set or occurring as a case-insensitive substring of
the body (absent body treated as empty), +1.5 per preference tag in the
tag set, +1.0 or +0.5 for a high- or medium-priority tag, +1.0 for a good
first issue tag when the load is exactly 0. -/
def score_spec (issue : Issue) (worker : Worker) : ℚ :=
  (2 : ℚ) * ((worker.skills.filter
      (fun sk => issue.labels.contains sk
        || strIn (strLower sk) (strLower (issue.body.getD "")))).length : ℚ)
  + (3 / 2 : ℚ) * ((worker.preferences.filter
      (fun p => issue.labels.contains p)).length : ℚ)
  + (if issue.labels.contains "high-priority" then (1 : ℚ)
     else if issue.labels.contains "medium-priority" then (1 / 2 : ℚ) else 0)
  + (if issue.labels.contains "good first issue" && worker.current_tasks == 0
     then (1 : ℚ) else 0)

/-- Worker A of Scenario A in the specification. -/
def workerA : Worker := ⟨"A", ["python", "ai"], ["lecture"], 3, 0⟩

/-- Worker B of Scenario A in the specification. -/
def workerB : Worker := ⟨"B", ["testing"], ["workshop"], 3, 0⟩

/-- Item I1 of Scenario A in the specification. -/
def itemI1 : Issue := ⟨"I1", ["lecture", "high-priority"], some "intro to python and ai"⟩

/-- Worker with a capitalized skill tag, separating the code's matching
from a fully case-insensitive one. -/
def caseWorker : Worker := ⟨"C", ["Python"], [], 3, 0⟩

/-- Item whose body contains the lowercase form of caseWorker's skill. -/
def caseItem : Issue := ⟨"cI", [], some "learn python"⟩

/-- Worker with the higher affinity but capacity one. -/
def scarceW : Worker := ⟨"W1", ["x", "y"], [], 1, 0⟩

/-- Worker with the lower affinity and plenty of capacity. -/
def spareW : Worker := ⟨"W2", ["x"], [], 5, 0⟩

/-- First of two identical-affinity items. -/
def itemJ1 : Issue := ⟨"J1", [], some "x y"⟩

/-- Second of two identical-affinity items. -/
def itemJ2 : Issue := ⟨"J2", [], some "x y"⟩

/-- Commit oracle that always succeeds. -/
def alwaysCommit : Issue → String → Bool := fun _ _ => true

/-- Workload map with every worker unloaded. -/
def zeroLoad : String → Nat := fun _ => 0

/-- Leftmost entry of maximal measure: the head wins ties against the
best of the tail, so the earliest maximum is kept. -/
def firstMaxBy {α : Type} (sc : α → ℚ) : List α → Option α
  | [] => none
  | x :: xs =>
    some ((firstMaxBy sc xs).elim x (fun m => if sc m ≤ sc x then x else m))

/-- A leftmost maximum is a member of its list. -/
theorem firstMaxBy_mem {α : Type} (sc : α → ℚ) :
    ∀ {l : List α} {m : α}, firstMaxBy sc l = some m → m ∈ l := by
  intro l
  induction l with
  | nil => intro m hm; simp [firstMaxBy] at hm
  | cons x xs ih =>
    intro m hm
    rw [firstMaxBy] at hm
    cases hx : firstMaxBy sc xs with
    | none =>
      rw [hx] at hm
      simp at hm
      simp [hm]
    | some m' =>
      rw [hx] at hm
      simp at hm
      by_cases hle : sc m' ≤ sc x
      · rw [if_pos hle] at hm; simp [hm]
      · rw [if_neg hle] at hm
        subst hm
        exact List.mem_cons_of_mem x (ih hx)

/-- firstMaxBy only returns none on the empty list. -/
theorem firstMaxBy_eq_none {α : Type} (sc : α → ℚ) :
    ∀ {l : List α}, firstMaxBy sc l = none → l = [] := by
  intro l h
  cases l with
  | nil => rfl
  | cons x xs => simp [firstMaxBy] at h

/-- On a list whose positions strictly increase, the leftmost maximum
dominates every entry and strictly dominates every earlier entry. -/
theorem firstMaxBy_spec {α : Type} (sc : α → ℚ) (ix : α → Nat) :
    ∀ (l : List α), l.Pairwise (fun a b => ix a < ix b) →
    ∀ (m : α), firstMaxBy sc l = some m →
    ∀ x ∈ l, sc x ≤ sc m ∧ (ix x < ix m → sc x < sc m) := by
  intro l
  induction l with
  | nil => intro _ m hm; simp [firstMaxBy] at hm
  | cons y ys ih =>
    intro hp m hm x hx
    have hylt : ∀ z ∈ ys, ix y < ix z := (List.pairwise_cons.mp hp).1
    have hpys : ys.Pairwise (fun a b => ix a < ix b) := (List.pairwise_cons.mp hp).2
    rw [firstMaxBy] at hm
    cases hys : firstMaxBy sc ys with
    | none =>
      have : ys = [] := firstMaxBy_eq_none sc hys
      subst this
      rw [hys] at hm
      simp at hm
      subst hm
      rcases List.mem_singleton.mp hx with rfl
      exact ⟨le_refl _, by omega⟩
    | some m' =>
      rw [hys] at hm
      simp at hm
      have hm'mem : m' ∈ ys := firstMaxBy_mem sc hys
      by_cases hle : sc m' ≤ sc y
      · rw [if_pos hle] at hm
        subst hm
        rcases List.mem_cons.mp hx with rfl | hxs
        · exact ⟨le_refl _, by omega⟩
        · have hxle := (ih hpys m' hys x hxs).1
          refine ⟨le_trans hxle hle, ?_⟩
          intro hlt
          exact absurd hlt (by have := hylt x hxs; omega)
      · rw [if_neg hle] at hm
        rcases List.mem_cons.mp hx with rfl | hxs
        · rw [← hm]
          have hlt : sc x < sc m' := lt_of_not_le hle
          exact ⟨le_of_lt hlt, fun _ => hlt⟩
        · rw [← hm]
          exact ih hpys m' hys x hxs

/-- Mapping a projection through firstMaxBy. -/
theorem firstMaxBy_map {α β : Type} (f : α → β) (sc : β → ℚ) :
    ∀ (l : List α),
    firstMaxBy sc (l.map f) = (firstMaxBy (fun a => sc (f a)) l).map f := by
  intro l
  induction l with
  | nil => simp [firstMaxBy]
  | cons x xs ih =>
    rw [List.map_cons, firstMaxBy, firstMaxBy, ih]
    cases hx : firstMaxBy (fun a => sc (f a)) xs with
    | none => simp
    | some m =>
      simp only [Option.map_some, Option.elim_some, Option.map]
      by_cases hle : sc (f m) ≤ sc (f x)
      · rw [if_pos hle, if_pos hle]
      · rw [if_neg hle, if_neg hle]

/-- Every score is a sum of non-negative bonuses. -/
theorem score_nonneg (issue : Issue) (w : Worker) : 0 ≤ calculate_task_score issue w := by
  unfold calculate_task_score
  have h3 : (0 : ℚ) ≤ (if (issue.labels.map strLower).contains "high-priority" then (1 : ℚ)
      else if (issue.labels.map strLower).contains "medium-priority" then (1 / 2 : ℚ) else 0) := by
    split_ifs <;> norm_num
  have h4 : (0 : ℚ) ≤ (if (issue.labels.map strLower).contains "good first issue"
      && w.current_tasks == 0 then (1 : ℚ) else 0) := by
    split_ifs <;> norm_num
  have h1 : (0 : ℚ) ≤ 2 * ((w.skills.filter (fun skill =>
      strIn skill (issue_body_lower issue)
        || (issue.labels.map strLower).contains skill)).length : ℚ) := by positivity
  have h2 : (0 : ℚ) ≤ (3 / 2 : ℚ) * ((w.preferences.filter
      (fun p => (issue.labels.map strLower).contains p)).length : ℚ) := by positivity
  linarith

/-- Every candidate-list entry is a below-capacity worker of the scanned
list, carrying its true score and its absolute position. -/
theorem mem_availableScores (issue : Issue) :
    ∀ (ws : List Worker) (k : Nat) (x : Nat × Worker × ℚ),
    x ∈ availableScores issue k ws →
    x.2.1.current_tasks < x.2.1.max_tasks ∧
    x.2.2 = calculate_task_score issue x.2.1 ∧
    k ≤ x.1 ∧ ws[x.1 - k]? = some x.2.1 := by
  intro ws
  induction ws with
  | nil => intro k x hx; simp [availableScores] at hx
  | cons w rest ih =>
    intro k x hx
    rw [availableScores] at hx
    by_cases hfull : w.max_tasks ≤ w.current_tasks
    · rw [if_pos hfull] at hx
      obtain ⟨h1, h2, h3, h4⟩ := ih (k + 1) x hx
      refine ⟨h1, h2, by omega, ?_⟩
      have hx1 : x.1 - k = (x.1 - (k + 1)) + 1 := by omega
      rw [hx1]
      simpa using h4
    · rw [if_neg hfull] at hx
      rcases List.mem_cons.mp hx with h | h
      · subst h
        refine ⟨?_, rfl, Nat.le_refl k, by simp⟩
        show w.current_tasks < w.max_tasks
        omega
      · obtain ⟨h1, h2, h3, h4⟩ := ih (k + 1) x h
        refine ⟨h1, h2, by omega, ?_⟩
        have hx1 : x.1 - k = (x.1 - (k + 1)) + 1 := by omega
        rw [hx1]
        simpa using h4

/-- Candidate positions strictly increase along the list. -/
theorem availableScores_pairwise (issue : Issue) :
    ∀ (ws : List Worker) (k : Nat),
    (availableScores issue k ws).Pairwise (fun a b => a.1 < b.1) := by
  intro ws
  induction ws with
  | nil => intro k; simp [availableScores]
  | cons w rest ih =>
    intro k
    rw [availableScores]
    by_cases hfull : w.max_tasks ≤ w.current_tasks
    · rw [if_pos hfull]; exact ih (k + 1)
    · rw [if_neg hfull]
      refine List.Pairwise.cons ?_ (ih (k + 1))
      intro x hx
      have hk := (mem_availableScores issue rest (k + 1) x hx).2.2.1
      show k < x.1
      omega

/-- The running-best scan equals comparing the leftmost maximum of the
candidate list against the incoming best score. -/
theorem findBestAux_eq (issue : Issue) :
    ∀ (ws : List Worker) (k : Nat) (bi : Option (Nat × Worker)) (bs : ℚ),
    findBestAux issue ws k bi bs =
      (firstMaxBy (fun x => x.2.2) (availableScores issue k ws)).elim (bi, bs)
        (fun x => if bs < x.2.2 then (some (x.1, x.2.1), x.2.2) else (bi, bs)) := by
  intro ws
  induction ws with
  | nil => intro k bi bs; simp [findBestAux, availableScores, firstMaxBy]
  | cons w rest ih =>
    intro k bi bs
    rw [findBestAux, availableScores]
    by_cases hfull : w.max_tasks ≤ w.current_tasks
    · rw [if_pos hfull, if_pos hfull, ih]
    · rw [if_neg hfull, if_neg hfull, firstMaxBy]
      have ih1 := ih (k + 1) (some (k, w)) (calculate_task_score issue w)
      have ih2 := ih (k + 1) bi bs
      cases hys : firstMaxBy (fun x => x.2.2) (availableScores issue (k + 1) rest) with
      | none =>
        rw [hys] at ih1 ih2
        simp only [Option.elim_none, Option.elim_some] at ih1 ih2 ⊢
        by_cases hbs : bs < calculate_task_score issue w
        · rw [if_pos hbs, ih1, if_pos hbs]
        · rw [if_neg hbs, ih2, if_neg hbs]
      | some m =>
        rw [hys] at ih1 ih2
        simp only [Option.elim_some] at ih1 ih2 ⊢
        by_cases hle : m.2.2 ≤ calculate_task_score issue w
        · rw [if_pos hle]
          by_cases hbs : bs < calculate_task_score issue w
          · rw [if_pos hbs, ih1, if_neg (by linarith : ¬ calculate_task_score issue w < m.2.2),
              if_pos hbs]
          · rw [if_neg hbs, ih2, if_neg (by linarith : ¬ bs < m.2.2), if_neg hbs]
        · rw [if_neg hle]
          have hwm : calculate_task_score issue w < m.2.2 := lt_of_not_le hle
          by_cases hbs : bs < calculate_task_score issue w
          · rw [if_pos hbs, ih1, if_pos hwm, if_pos (by linarith : bs < m.2.2)]
          · rw [if_neg hbs, ih2]

/-- findBest returns exactly the leftmost maximum of the candidate list,
or best score -1 when there is no candidate. -/
theorem findBest_eq (issue : Issue) (ws : List Worker) :
    findBest issue ws =
      (firstMaxBy (fun x => x.2.2) (availableScores issue 0 ws)).elim (none, -1)
        (fun x => (some (x.1, x.2.1), x.2.2)) := by
  rw [findBest, findBestAux_eq]
  cases hys : firstMaxBy (fun x => x.2.2) (availableScores issue 0 ws) with
  | none => simp
  | some m =>
    have hmem := firstMaxBy_mem _ hys
    have hsc := (mem_availableScores issue ws 0 m hmem).2.1
    have hnn := score_nonneg issue m.2.1
    simp only [Option.elim_some]
    rw [if_pos (by rw [hsc]; linarith)]

/-- When findBest selects a worker, that selection is the leftmost
maximum of the candidate list. -/
theorem findBest_some (issue : Issue) (ws : List Worker) (i : Nat) (w : Worker) (s : ℚ)
    (h : findBest issue ws = (some (i, w), s)) :
    firstMaxBy (fun x => x.2.2) (availableScores issue 0 ws) = some (i, w, s) := by
  rw [findBest_eq] at h
  cases hys : firstMaxBy (fun x => x.2.2) (availableScores issue 0 ws) with
  | none => rw [hys] at h; simp at h
  | some m =>
    rw [hys] at h
    simp only [Option.elim_some] at h
    obtain ⟨h1, h2⟩ := Prod.mk.injEq .. ▸ h
    cases m with
    | mk mi mrest =>
      cases mrest with
      | mk mw ms =>
        simp at h1 h2
        simp [h1.1, h1.2, h2]

/-- Inserting by rank is a permutation of consing. -/
theorem perm_insertByRank (x : Issue) :
    ∀ l : List Issue, (insertByRank x l).Perm (x :: l) := by
  intro l
  induction l with
  | nil => simp [insertByRank]
  | cons y ys ih =>
    rw [insertByRank]
    by_cases h : priorityRank x ≤ priorityRank y
    · rw [if_pos h]
    · rw [if_neg h]
      exact (ih.cons y).trans (List.Perm.swap x y ys)

/-- The issue sort is a permutation of its input. -/
theorem perm_sortByRank : ∀ l : List Issue, (sortByRank l).Perm l := by
  intro l
  induction l with
  | nil => simp [sortByRank]
  | cons x xs ih =>
    rw [sortByRank]
    exact (perm_insertByRank x (sortByRank xs)).trans (ih.cons x)

/-- Inserting by rank preserves sortedness by rank. -/
theorem sorted_insertByRank (x : Issue) :
    ∀ l : List Issue, l.Pairwise (fun a b => priorityRank a ≤ priorityRank b) →
    (insertByRank x l).Pairwise (fun a b => priorityRank a ≤ priorityRank b) := by
  intro l
  induction l with
  | nil => intro _; simp [insertByRank]
  | cons y ys ih =>
    intro hp
    obtain ⟨hy, hys⟩ := List.pairwise_cons.mp hp
    rw [insertByRank]
    by_cases h : priorityRank x ≤ priorityRank y
    · rw [if_pos h]
      refine List.Pairwise.cons ?_ hp
      intro z hz
      rcases List.mem_cons.mp hz with rfl | hzs
      · exact h
      · exact le_trans h (hy z hzs)
    · rw [if_neg h]
      refine List.Pairwise.cons ?_ (ih hys)
      intro z hz
      rcases List.mem_cons.mp ((perm_insertByRank x ys).mem_iff.mp hz) with rfl | hzs
      · omega
      · exact hy z hzs

/-- The issue sort is sorted by non-decreasing priority rank. -/
theorem sorted_sortByRank :
    ∀ l : List Issue,
    (sortByRank l).Pairwise (fun a b => priorityRank a ≤ priorityRank b) := by
  intro l
  induction l with
  | nil => simp [sortByRank]
  | cons x xs ih => rw [sortByRank]; exact sorted_insertByRank x (sortByRank xs) ih

/-- Filtering one rank value through an insertion: the inserted item goes
to the front of its own rank class and other classes are untouched. -/
theorem filter_insertByRank (x : Issue) (r : Nat) :
    ∀ l : List Issue,
    (insertByRank x l).filter (fun i => priorityRank i == r) =
      if priorityRank x = r then x :: l.filter (fun i => priorityRank i == r)
      else l.filter (fun i => priorityRank i == r) := by
  intro l
  induction l with
  | nil =>
    rw [insertByRank]
    by_cases hx : priorityRank x = r <;> simp [hx]
  | cons y ys ih =>
    rw [insertByRank]
    by_cases h : priorityRank x ≤ priorityRank y
    · rw [if_pos h]
      by_cases hx : priorityRank x = r <;> simp [List.filter_cons, hx]
    · rw [if_neg h, List.filter_cons, ih]
      by_cases hx : priorityRank x = r
      · have hy : ¬ priorityRank y = r := by omega
        simp [List.filter_cons, hx, hy]
      · by_cases hy : priorityRank y = r <;> simp [List.filter_cons, hx, hy]

/-- Stability of the issue sort: within each rank class the input order
is preserved. -/
theorem filter_sortByRank (r : Nat) :
    ∀ l : List Issue,
    (sortByRank l).filter (fun i => priorityRank i == r) =
      l.filter (fun i => priorityRank i == r) := by
  intro l
  induction l with
  | nil => simp [sortByRank]
  | cons x xs ih =>
    rw [sortByRank, filter_insertByRank, ih, List.filter_cons]
    by_cases hx : priorityRank x = r <;> simp [hx]

/-- Closed form of the fold computing the priority rank. -/
theorem priorityRank_closed :
    ∀ ls : List String,
    ((ls.filter (fun l => priority_order.contains l)).map
      (fun l => priority_order.indexOf l)).foldr min priority_order.length =
    if ls.contains "high-priority" then 0
    else if ls.contains "medium-priority" then 1
    else if ls.contains "low-priority" then 2
    else 3 := by
  intro ls
  induction ls with
  | nil => simp [priority_order]
  | cons a ls ih =>
    rw [List.filter_cons]
    by_cases h1 : a = "high-priority"
    · subst h1
      rw [if_pos (by decide), List.map_cons, List.foldr_cons, ih]
      have e0 : priority_order.indexOf "high-priority" = 0 := by decide
      rw [e0]
      by_cases c1 : "high-priority" ∈ ls <;> by_cases c2 : "medium-priority" ∈ ls <;>
        by_cases c3 : "low-priority" ∈ ls <;> simp [List.contains_cons, c1, c2, c3]
    · by_cases h2 : a = "medium-priority"
      · subst h2
        rw [if_pos (by decide), List.map_cons, List.foldr_cons, ih]
        have e0 : priority_order.indexOf "medium-priority" = 1 := by decide
        rw [e0]
        by_cases c1 : "high-priority" ∈ ls <;> by_cases c2 : "medium-priority" ∈ ls <;>
          by_cases c3 : "low-priority" ∈ ls <;> simp [List.contains_cons, c1, c2, c3]
      · by_cases h3 : a = "low-priority"
        · subst h3
          rw [if_pos (by decide), List.map_cons, List.foldr_cons, ih]
          have e0 : priority_order.indexOf "low-priority" = 2 := by decide
          rw [e0]
          by_cases c1 : "high-priority" ∈ ls <;> by_cases c2 : "medium-priority" ∈ ls <;>
            by_cases c3 : "low-priority" ∈ ls <;> simp [List.contains_cons, c1, c2, c3]
        · have hc : priority_order.contains a = false := by
            simp [priority_order, h1, h2, h3]
          rw [hc, if_neg (by simp), ih]
          simp [List.contains_cons, Ne.symm h1, Ne.symm h2, Ne.symm h3]

/-- The code's priority rank equals the rank as the specification words
it: index of the first tier present among the tags, else the tier count. -/
theorem priorityRank_eq_rank_spec (issue : Issue) :
    priorityRank issue = rank_spec issue := by
  rw [priorityRank, rank_spec, priorityRank_closed]

/-- assignLoop stops once the bound is reached. -/
theorem assignLoop_stop (c : Issue → String → Bool) (issue : Issue) (rest : List Issue)
    (interns : List Worker) (made maxA : Nat) (h : maxA ≤ made) :
    assignLoop c (issue :: rest) interns made maxA = ([], interns, made) := by
  rw [assignLoop, if_pos h]

/-- assignLoop skips an issue with no candidate at all. -/
theorem assignLoop_skip_none (c : Issue → String → Bool) (issue : Issue) (rest : List Issue)
    (interns : List Worker) (made maxA : Nat) (s : ℚ) (h : ¬ maxA ≤ made)
    (hfb : findBest issue interns = (none, s)) :
    assignLoop c (issue :: rest) interns made maxA =
      assignLoop c rest interns made maxA := by
  rw [assignLoop, if_neg h, hfb]

/-- assignLoop skips an issue whose best score is not positive. -/
theorem assignLoop_skip_low (c : Issue → String → Bool) (issue : Issue) (rest : List Issue)
    (interns : List Worker) (made maxA i : Nat) (w : Worker) (s : ℚ) (h : ¬ maxA ≤ made)
    (hfb : findBest issue interns = (some (i, w), s)) (hs : ¬ 0 < s) :
    assignLoop c (issue :: rest) interns made maxA =
      assignLoop c rest interns made maxA := by
  rw [assignLoop, if_neg h, hfb]
  simp only [if_neg hs]

/-- assignLoop on a failing commit: nothing is recorded and the loop
moves to the next issue with unchanged state. -/
theorem assignLoop_fail (c : Issue → String → Bool) (issue : Issue) (rest : List Issue)
    (interns : List Worker) (made maxA i : Nat) (w : Worker) (s : ℚ) (h : ¬ maxA ≤ made)
    (hfb : findBest issue interns = (some (i, w), s)) (hs : 0 < s)
    (hc : c issue w.username = false) :
    assignLoop c (issue :: rest) interns made maxA =
      assignLoop c rest interns made maxA := by
  rw [assignLoop, if_neg h, hfb]
  simp only [if_pos hs, hc]
  rfl

/-- assignLoop on a successful commit: the assignment is produced, the
chosen worker's load is incremented, and the counter advances. -/
theorem assignLoop_commit (c : Issue → String → Bool) (issue : Issue) (rest : List Issue)
    (interns : List Worker) (made maxA i : Nat) (w : Worker) (s : ℚ) (h : ¬ maxA ≤ made)
    (hfb : findBest issue interns = (some (i, w), s)) (hs : 0 < s)
    (hc : c issue w.username = true) :
    assignLoop c (issue :: rest) interns made maxA =
      (⟨issue, w.username, s⟩ ::
         (assignLoop c rest (interns.set i (incLoad w)) (made + 1) maxA).1,
       (assignLoop c rest (interns.set i (incLoad w)) (made + 1) maxA).2) := by
  rw [assignLoop, if_neg h, hfb]
  simp only [if_pos hs, hc]
  rfl

/-- The worker findBest selects is below capacity, sits at the reported
index, and the reported best score is its true score. -/
theorem findBest_selects_available (issue : Issue) (ws : List Worker) (i : Nat) (w : Worker)
    (s : ℚ) (h : findBest issue ws = (some (i, w), s)) :
    w.current_tasks < w.max_tasks ∧ ws[i]? = some w ∧ s = calculate_task_score issue w := by
  have hfm := findBest_some issue ws i w s h
  have hmem := firstMaxBy_mem _ hfm
  have hm := mem_availableScores issue ws 0 (i, w, s) hmem
  exact ⟨hm.1, by simpa using hm.2.2.2, hm.2.1⟩

/-- The number of assignments the loop makes never exceeds the remaining
budget. -/
theorem assignLoop_length_le (c : Issue → String → Bool) :
    ∀ (issues : List Issue) (interns : List Worker) (made maxA : Nat),
    (assignLoop c issues interns made maxA).1.length ≤ maxA - made := by
  intro issues
  induction issues with
  | nil => intro interns made maxA; rw [assignLoop]; simp
  | cons issue rest ih =>
    intro interns made maxA
    by_cases h : maxA ≤ made
    · rw [assignLoop_stop c issue rest interns made maxA h]; simp
    · rcases hfb : findBest issue interns with ⟨bi, s⟩
      cases bi with
      | none =>
        rw [assignLoop_skip_none c issue rest interns made maxA s h hfb]
        exact ih interns made maxA
      | some p =>
        rcases p with ⟨i, w⟩
        by_cases hs : 0 < s
        · cases hc : c issue w.username with
          | false =>
            rw [assignLoop_fail c issue rest interns made maxA i w s h hfb hs hc]
            exact ih interns made maxA
          | true =>
            rw [assignLoop_commit c issue rest interns made maxA i w s h hfb hs hc]
            have hrec := ih (interns.set i (incLoad w)) (made + 1) maxA
            simp only [List.length_cons]
            omega
        · rw [assignLoop_skip_low c issue rest interns made maxA i w s h hfb hs]
          exact ih interns made maxA

/-- Capacity invariant: if every worker starts within capacity, every
worker state reachable through the loop stays within capacity. -/
theorem assignLoop_invariant (c : Issue → String → Bool) :
    ∀ (issues : List Issue) (interns : List Worker) (made maxA : Nat),
    (∀ w ∈ interns, w.current_tasks ≤ w.max_tasks) →
    ∀ w ∈ (assignLoop c issues interns made maxA).2.1,
      w.current_tasks ≤ w.max_tasks := by
  intro issues
  induction issues with
  | nil => intro interns made maxA hinv; rw [assignLoop]; exact hinv
  | cons issue rest ih =>
    intro interns made maxA hinv
    by_cases h : maxA ≤ made
    · rw [assignLoop_stop c issue rest interns made maxA h]; exact hinv
    · rcases hfb : findBest issue interns with ⟨bi, s⟩
      cases bi with
      | none =>
        rw [assignLoop_skip_none c issue rest interns made maxA s h hfb]
        exact ih interns made maxA hinv
      | some p =>
        rcases p with ⟨i, w⟩
        by_cases hs : 0 < s
        · cases hc : c issue w.username with
          | false =>
            rw [assignLoop_fail c issue rest interns made maxA i w s h hfb hs hc]
            exact ih interns made maxA hinv
          | true =>
            rw [assignLoop_commit c issue rest interns made maxA i w s h hfb hs hc]
            refine ih (interns.set i (incLoad w)) (made + 1) maxA ?_
            intro z hz
            rcases List.mem_or_eq_of_mem_set hz with hzl | hze
            · exact hinv z hzl
            · subst hze
              have hav := (findBest_selects_available issue interns i w s hfb).1
              show w.current_tasks + 1 ≤ w.max_tasks
              omega
        · rw [assignLoop_skip_low c issue rest interns made maxA i w s h hfb hs]
          exact ih interns made maxA hinv

/-- With every worker at or over capacity there are no candidates. -/
theorem availableScores_nil_of_full (issue : Issue) :
    ∀ (ws : List Worker) (k : Nat), (∀ w ∈ ws, w.max_tasks ≤ w.current_tasks) →
    availableScores issue k ws = [] := by
  intro ws
  induction ws with
  | nil => intro k _; rw [availableScores]
  | cons w rest ih =>
    intro k hfull
    rw [availableScores, if_pos (hfull w (List.mem_cons_self w rest))]
    exact ih (k + 1) (fun z hz => hfull z (List.mem_cons_of_mem w hz))

/-- With every worker at or over capacity, findBest finds nobody. -/
theorem findBest_all_full (issue : Issue) (ws : List Worker)
    (h : ∀ w ∈ ws, w.max_tasks ≤ w.current_tasks) :
    findBest issue ws = (none, -1) := by
  rw [findBest_eq, availableScores_nil_of_full issue ws 0 h]
  rfl

/-- With every worker at or over capacity the loop makes no assignment,
changes no state, and terminates normally. -/
theorem assignLoop_all_full (c : Issue → String → Bool) :
    ∀ (issues : List Issue) (interns : List Worker) (made maxA : Nat),
    (∀ w ∈ interns, w.max_tasks ≤ w.current_tasks) →
    assignLoop c issues interns made maxA = ([], interns, made) := by
  intro issues
  induction issues with
  | nil => intro interns made maxA _; rw [assignLoop]
  | cons issue rest ih =>
    intro interns made maxA hfull
    by_cases h : maxA ≤ made
    · exact assignLoop_stop c issue rest interns made maxA h
    · rw [assignLoop_skip_none c issue rest interns made maxA (-1) h
        (findBest_all_full issue interns hfull)]
      exact ih interns made maxA hfull

/-- Every produced assignment carries a strictly positive score. -/
theorem assignLoop_scores_pos (c : Issue → String → Bool) :
    ∀ (issues : List Issue) (interns : List Worker) (made maxA : Nat),
    ∀ a ∈ (assignLoop c issues interns made maxA).1, 0 < a.score := by
  intro issues
  induction issues with
  | nil => intro interns made maxA a ha; rw [assignLoop] at ha; simp at ha
  | cons issue rest ih =>
    intro interns made maxA a ha
    by_cases h : maxA ≤ made
    · rw [assignLoop_stop c issue rest interns made maxA h] at ha; simp at ha
    · rcases hfb : findBest issue interns with ⟨bi, s⟩
      cases bi with
      | none =>
        rw [assignLoop_skip_none c issue rest interns made maxA s h hfb] at ha
        exact ih interns made maxA a ha
      | some p =>
        rcases p with ⟨i, w⟩
        by_cases hs : 0 < s
        · cases hc : c issue w.username with
          | false =>
            rw [assignLoop_fail c issue rest interns made maxA i w s h hfb hs hc] at ha
            exact ih interns made maxA a ha
          | true =>
            rw [assignLoop_commit c issue rest interns made maxA i w s h hfb hs hc] at ha
            rcases List.mem_cons.mp ha with rfl | hacons
            · exact hs
            · exact ih (interns.set i (incLoad w)) (made + 1) maxA a hacons
        · rw [assignLoop_skip_low c issue rest interns made maxA i w s h hfb hs] at ha
          exact ih interns made maxA a ha

/-- Instrumented loop, failing-commit step: one more attempt is counted
while the assignment list, intern state and success counter are those of
the continuation. -/
theorem assignLoopA_fail (c : Issue → String → Bool) (issue : Issue) (rest : List Issue)
    (interns : List Worker) (made maxA i : Nat) (w : Worker) (s : ℚ) (h : ¬ maxA ≤ made)
    (hfb : findBest issue interns = (some (i, w), s)) (hs : 0 < s)
    (hc : c issue w.username = false) :
    assignLoopA c (issue :: rest) interns made maxA =
      ((assignLoopA c rest interns made maxA).1,
       (assignLoopA c rest interns made maxA).2.1,
       (assignLoopA c rest interns made maxA).2.2.1,
       (assignLoopA c rest interns made maxA).2.2.2 + 1) := by
  rw [assignLoopA, if_neg h, hfb]
  simp only [if_pos hs, hc]
  rfl

/-- The first three components of the instrumented loop coincide with
the plain loop. -/
theorem assignLoopA_proj (c : Issue → String → Bool) :
    ∀ (issues : List Issue) (interns : List Worker) (made maxA : Nat),
    (assignLoopA c issues interns made maxA).1 = (assignLoop c issues interns made maxA).1 ∧
    (assignLoopA c issues interns made maxA).2.1 =
      (assignLoop c issues interns made maxA).2.1 ∧
    (assignLoopA c issues interns made maxA).2.2.1 =
      (assignLoop c issues interns made maxA).2.2 := by
  intro issues
  induction issues with
  | nil => intro interns made maxA; rw [assignLoop, assignLoopA]; exact ⟨rfl, rfl, rfl⟩
  | cons issue rest ih =>
    intro interns made maxA
    by_cases h : maxA ≤ made
    · rw [assignLoop_stop c issue rest interns made maxA h, assignLoopA, if_pos h]
      exact ⟨rfl, rfl, rfl⟩
    · rcases hfb : findBest issue interns with ⟨bi, s⟩
      cases bi with
      | none =>
        rw [assignLoop_skip_none c issue rest interns made maxA s h hfb,
          assignLoopA, if_neg h, hfb]
        exact ih interns made maxA
      | some p =>
        rcases p with ⟨i, w⟩
        by_cases hs : 0 < s
        · cases hc : c issue w.username with
          | false =>
            rw [assignLoop_fail c issue rest interns made maxA i w s h hfb hs hc,
              assignLoopA_fail c issue rest interns made maxA i w s h hfb hs hc]
            exact ih interns made maxA
          | true =>
            rw [assignLoop_commit c issue rest interns made maxA i w s h hfb hs hc,
              assignLoopA, if_neg h, hfb]
            simp only [if_pos hs, hc]
            obtain ⟨e1, e2, e3⟩ := ih (interns.set i (incLoad w)) (made + 1) maxA
            refine ⟨?_, ?_, ?_⟩
            · rw [e1]; rfl
            · rw [e2]; rfl
            · rw [e3]; rfl
        · rw [assignLoop_skip_low c issue rest interns made maxA i w s h hfb hs,
            assignLoopA, if_neg h, hfb]
          simp only [if_neg hs]
          exact ih interns made maxA

/-- The simulated per-issue candidate ranking of suggest mode: its pairs
are the projections of the allocator's candidate list over the reseeded
intern states. -/
theorem suggestPairs_eq_availableScores (issue : Issue) :
    ∀ (ws : List Worker) (k : Nat),
    ws.filterMap (fun w => if w.current_tasks < w.max_tasks
        then some (w, calculate_task_score issue w) else none) =
      (availableScores issue k ws).map (fun x => (x.2.1, x.2.2)) := by
  intro ws
  induction ws with
  | nil => intro k; rw [availableScores]; rfl
  | cons w rest ih =>
    intro k
    rw [availableScores, List.filterMap_cons]
    by_cases hfull : w.max_tasks ≤ w.current_tasks
    · rw [if_pos hfull]
      have : (if w.current_tasks < w.max_tasks
          then some (w, calculate_task_score issue w) else none) = none := by
        rw [if_neg (by omega)]
      rw [this]
      exact ih (k + 1)
    · rw [if_neg hfull]
      have : (if w.current_tasks < w.max_tasks
          then some (w, calculate_task_score issue w) else none) =
          some (w, calculate_task_score issue w) := by
        rw [if_pos (by omega)]
      rw [this, List.map_cons]
      rw [ih (k + 1)]

/-- Head of a stable descending insertion. -/
theorem head_insertDesc (x : Worker × ℚ) :
    ∀ l : List (Worker × ℚ),
    (insertDesc x l).head? = some (l.head?.elim x (fun y => if y.2 ≤ x.2 then x else y)) := by
  intro l
  cases l with
  | nil => rfl
  | cons y ys =>
    rw [insertDesc]
    by_cases h : y.2 ≤ x.2
    · rw [if_pos h]; simp [h]
    · rw [if_neg h]; simp [h]

/-- The head of the descending stable sort is the leftmost maximum. -/
theorem head_sortDesc :
    ∀ l : List (Worker × ℚ),
    (sortDesc l).head? = firstMaxBy (fun p => p.2) l := by
  intro l
  induction l with
  | nil => rfl
  | cons x xs ih =>
    rw [sortDesc, head_insertDesc, firstMaxBy, ih]

/-- Taking the top three preserves the head. -/
theorem head_take3 {α : Type} (l : List α) : (l.take 3).head? = l.head? := by
  cases l <;> rfl

/-- On a list of workers whose loads already equal their workload-map
entries, reseeding is the identity. -/
theorem map_reseed_id (workload : String → Nat) :
    ∀ ws : List Worker, (∀ w ∈ ws, w.current_tasks = workload w.username) →
    ws.map (reseed workload) = ws := by
  intro ws
  induction ws with
  | nil => intro _; rfl
  | cons w rest ih =>
    intro h
    rw [List.map_cons, ih (fun z hz => h z (List.mem_cons_of_mem w hz))]
    have hw := h w (List.mem_cons_self w rest)
    show reseed workload w :: rest = w :: rest
    rw [reseed, ← hw]

/-- Lowering is the identity on a list of already lowercase strings. -/
theorem map_strLower_id :
    ∀ ls : List String, (∀ l ∈ ls, strLower l = l) → ls.map strLower = ls := by
  intro ls
  induction ls with
  | nil => intro _; rfl
  | cons a rest ih =>
    intro h
    rw [List.map_cons, ih (fun z hz => h z (List.mem_cons_of_mem a hz)),
      h a (List.mem_cons_self a rest)]

/-- The lowered body used by the scorer is the lowering of the body with
an absent body read as the empty string. -/
theorem issue_body_lower_eq (issue : Issue) :
    issue_body_lower issue = strLower (issue.body.getD "") := by
  rcases issue with ⟨t, ls, b⟩
  cases b <;> rfl

/-- The top suggestion of suggest mode for an issue is exactly the worker
the allocator's selection rule picks on the same reseeded intern states,
together with its score. -/
theorem suggest_for_head (workload : String → Nat) (issue : Issue) (interns : List Worker)
    (i : Nat) (w : Worker) (s : ℚ)
    (h : findBest issue (interns.map (reseed workload)) = (some (i, w), s)) :
    (suggest_for workload issue interns).head? = some (w, s) := by
  have hfm := findBest_some issue (interns.map (reseed workload)) i w s h
  rw [suggest_for]
  rw [head_take3, head_sortDesc,
    suggestPairs_eq_availableScores issue (interns.map (reseed workload)) 0]
  have hmap := firstMaxBy_map (fun x : Nat × Worker × ℚ => (x.2.1, x.2.2))
    (fun p : Worker × ℚ => p.2) (availableScores issue 0 (interns.map (reseed workload)))
  rw [hmap]
  have hfun : (fun a : Nat × Worker × ℚ =>
      (fun p : Worker × ℚ => p.2) ((fun x : Nat × Worker × ℚ => (x.2.1, x.2.2)) a)) =
      (fun x : Nat × Worker × ℚ => x.2.2) := rfl
  rw [hfun, hfm]
  rfl

/-- Suggest mode's loop leaves a ledger-seeded intern list untouched. -/
theorem suggestLoop_state (workload : String → Nat) :
    ∀ (issues : List Issue) (interns : List Worker),
    (∀ w ∈ interns, w.current_tasks = workload w.username) →
    (suggestLoop workload issues interns).2 = interns := by
  intro issues
  induction issues with
  | nil => intro interns _; rw [suggestLoop]
  | cons issue rest ih =>
    intro interns h
    rw [suggestLoop]
    show (suggestLoop workload rest (interns.map (reseed workload))).2 = interns
    rw [map_reseed_id workload interns h]
    exact ih interns h

/-- Under case-normalized item tags and lowercase worker skill tags, the
code's score agrees with the scheme as the specification words it. -/
theorem calculate_eq_score_spec (issue : Issue) (worker : Worker)
    (hl : ∀ l ∈ issue.labels, strLower l = l)
    (hsk : ∀ sk ∈ worker.skills, strLower sk = sk) :
    calculate_task_score issue worker = score_spec issue worker := by
  rw [calculate_task_score, score_spec]
  have hmap : issue.labels.map strLower = issue.labels := map_strLower_id issue.labels hl
  simp only [hmap]
  have hfilter : worker.skills.filter
      (fun skill => strIn skill (issue_body_lower issue) || issue.labels.contains skill) =
      worker.skills.filter
      (fun sk => issue.labels.contains sk
        || strIn (strLower sk) (strLower (issue.body.getD ""))) := by
    apply List.filter_congr
    intro sk hmem
    rw [hsk sk hmem, issue_body_lower_eq, Bool.or_comm]
  rw [hfilter]

/-- C1: a worker at or over capacity is excluded from the candidate set
of every item regardless of score (both in the candidate list and in the
selection), and when every seeded load is within capacity the invariant
currentLoad at most capacity holds at every state the loop reaches and
after the whole run; loads are Nat, so 0 is a lower bound throughout. -/
theorem claim_C1 :
    (∀ (issue : Issue) (k : Nat) (ws : List Worker) (x : Nat × Worker × ℚ),
      x ∈ availableScores issue k ws → x.2.1.current_tasks < x.2.1.max_tasks) ∧
    (∀ (issue : Issue) (ws : List Worker) (i : Nat) (w : Worker) (s : ℚ),
      findBest issue ws = (some (i, w), s) → w.current_tasks < w.max_tasks) ∧
    (∀ (c : Issue → String → Bool) (issues : List Issue) (interns : List Worker)
       (made maxA : Nat),
      (∀ w ∈ interns, w.current_tasks ≤ w.max_tasks) →
      ∀ w ∈ (assignLoop c issues interns made maxA).2.1,
        w.current_tasks ≤ w.max_tasks) ∧
    (∀ (c : Issue → String → Bool) (workload : String → Nat) (issues : List Issue)
       (interns : List Worker) (maxA : Nat),
      (∀ w ∈ interns, workload w.username ≤ w.max_tasks) →
      ∀ w ∈ (assign_tasks c workload issues interns maxA).2.1,
        w.current_tasks ≤ w.max_tasks) := by
  refine ⟨?_, ?_, assignLoop_invariant, ?_⟩
  · intro issue k ws x hx
    exact (mem_availableScores issue ws k x hx).1
  · intro issue ws i w s h
    exact (findBest_selects_available issue ws i w s h).1
  · intro c workload issues interns maxA h
    refine assignLoop_invariant c (sortByRank issues) (interns.map (reseed workload)) 0 maxA ?_
    intro z hz
    rcases List.mem_map.mp hz with ⟨w, hw, rfl⟩
    exact h w hw

/-- C1 witness at Scenario A: the final state of worker A stays within
capacity. -/
theorem claim_C1_witness :
    (Worker.mk "A" ["python", "ai"] ["lecture"] 3 1).current_tasks ≤
      (Worker.mk "A" ["python", "ai"] ["lecture"] 3 1).max_tasks :=
  claim_C1.2.2.2 alwaysCommit zeroLoad [itemI1] [workerA] 5 (by decide)
    (Worker.mk "A" ["python", "ai"] ["lecture"] 3 1) (by decide)

/-- C2 counterexample: the priority bonus accrues to every worker, so
score(I1, B) is 1.0 and not the specification's 0; and the skill match is
not fully case-insensitive: a capitalized skill tag fails to match a
lowercase body although the claimed scheme awards it 2.0. -/
theorem claim_C2_counterexample :
    calculate_task_score itemI1 workerB = 1 ∧
    ¬ calculate_task_score itemI1 workerB = 0 ∧
    calculate_task_score caseItem caseWorker = 0 ∧
    score_spec caseItem caseWorker = 2 := by
  refine ⟨by decide, by decide, by decide, by decide⟩

/-- C2 amended: the additive scheme holds with the item's tags and body
lowered and the worker's tags compared verbatim; on case-normalized item
tags and lowercase worker skill tags it coincides with the specification
scheme, and in Scenario A score(I1, A) is 6.5, score(I1, B) is 1.0, I1 is
assigned to A, and A's load becomes 1. -/
theorem claim_C2 :
    (∀ (issue : Issue) (worker : Worker),
      (∀ l ∈ issue.labels, strLower l = l) →
      (∀ sk ∈ worker.skills, strLower sk = sk) →
      calculate_task_score issue worker = score_spec issue worker) ∧
    calculate_task_score itemI1 workerA = 13 / 2 ∧
    calculate_task_score itemI1 workerB = 1 ∧
    (assign_tasks alwaysCommit zeroLoad [itemI1] [workerA, workerB] 10).1 =
      [⟨itemI1, "A", 13 / 2⟩] ∧
    (assign_tasks alwaysCommit zeroLoad [itemI1] [workerA, workerB] 10).2.1 =
      [⟨"A", ["python", "ai"], ["lecture"], 3, 1⟩, workerB] := by
  exact ⟨calculate_eq_score_spec, by decide, by decide, by decide, by decide⟩

/-- C2 witness: the scheme agreement applied to Scenario A's inputs. -/
theorem claim_C2_witness :
    calculate_task_score itemI1 workerA = score_spec itemI1 workerA :=
  claim_C2.1 itemI1 workerA (by decide) (by decide)

/-- C3: allocate is the greedy loop over the stably sorted items: the
sort is a permutation, it is non-decreasing in priority rank, items of
equal rank keep their input order, and the rank is the index of the
first tier of [high, medium, low] found among the tags, or 3. -/
theorem claim_C3 :
    (∀ (c : Issue → String → Bool) (workload : String → Nat) (issues : List Issue)
       (interns : List Worker) (maxA : Nat),
      assign_tasks c workload issues interns maxA =
        assignLoop c (sortByRank issues) (interns.map (reseed workload)) 0 maxA) ∧
    (∀ issues : List Issue, (sortByRank issues).Perm issues) ∧
    (∀ issues : List Issue,
      (sortByRank issues).Pairwise (fun a b => priorityRank a ≤ priorityRank b)) ∧
    (∀ (issues : List Issue) (r : Nat),
      (sortByRank issues).filter (fun i => priorityRank i == r) =
        issues.filter (fun i => priorityRank i == r)) ∧
    (∀ issue : Issue, priorityRank issue = rank_spec issue) :=
  ⟨fun _ _ _ _ _ => rfl, perm_sortByRank, sorted_sortByRank,
    fun issues r => filter_sortByRank r issues, priorityRank_eq_rank_spec⟩

/-- C4 counterexample: with two items and a scarce best worker, the
committing path assigns the second item to W2, while suggest mode's
top-ranked candidate for that item is still W1 — the suggest ranking
does not track the committing path's evolving loads. -/
theorem claim_C4_counterexample :
    (assign_tasks alwaysCommit zeroLoad [itemJ1, itemJ2] [scarceW, spareW] 10).1 =
      [⟨itemJ1, "W1", 4⟩, ⟨itemJ2, "W2", 2⟩] ∧
    (suggest_assignments zeroLoad [itemJ1, itemJ2] [scarceW, spareW]).1 =
      [(itemJ1, [(scarceW, 4), (spareW, 2)]), (itemJ2, [(scarceW, 4), (spareW, 2)])] ∧
    ¬ (("W1" : String) = "W2") := by
  refine ⟨by decide, by decide, by decide⟩

/-- C4 amended: suggest mode shares the ScoringModel and capacity filter
and never mutates the seeded ledger or commits; per item its top-ranked
candidate is the worker the committing path's selection rule picks on
the same seeded loads. It does not re-sort items by priority and does
not evolve loads between items, so for items after the first its top
candidate can differ from the committing path's actual assignment. -/
theorem claim_C4 :
    (∀ (workload : String → Nat) (issues : List Issue) (interns : List Worker),
      (∀ w ∈ interns, w.current_tasks = workload w.username) →
      (suggest_assignments workload issues interns).2 = interns) ∧
    (∀ (workload : String → Nat) (issue : Issue) (interns : List Worker)
       (i : Nat) (w : Worker) (s : ℚ),
      findBest issue (interns.map (reseed workload)) = (some (i, w), s) →
      (suggest_for workload issue interns).head? = some (w, s)) :=
  ⟨suggestLoop_state, suggest_for_head⟩

/-- C4 witness: the agreement of the top suggestion with the selection
rule on the scarce-worker inputs. -/
theorem claim_C4_witness :
    (suggest_for zeroLoad itemJ1 [scarceW, spareW]).head? = some (scarceW, 4) :=
  claim_C4.2 zeroLoad itemJ1 [scarceW, spareW] 0 scarceW 4 (by decide)

/-- C5: when the external commit of the selected assignment fails, the
run continues on the remaining items with the assignment list, intern
loads and success counter exactly as if the item had been skipped: the
assignment is absent from the output, the worker's load is unchanged, no
error escapes, and no other worker is retried for that item. -/
theorem claim_C5 :
    ∀ (c : Issue → String → Bool) (issue : Issue) (rest : List Issue)
      (interns : List Worker) (made maxA i : Nat) (w : Worker) (s : ℚ),
    ¬ maxA ≤ made → findBest issue interns = (some (i, w), s) → 0 < s →
    c issue w.username = false →
    assignLoop c (issue :: rest) interns made maxA =
      assignLoop c rest interns made maxA :=
  assignLoop_fail

/-- C5 witness: a failing commit on the first item leaves the run equal
to the run on the remaining item. -/
theorem claim_C5_witness :
    assignLoop (fun _ _ => false) [itemJ1, itemJ2] [scarceW, spareW] 0 5 =
      assignLoop (fun _ _ => false) [itemJ2] [scarceW, spareW] 0 5 :=
  claim_C5 (fun _ _ => false) itemJ1 [itemJ2] [scarceW, spareW] 0 5 0 scarceW 4
    (by decide) (by decide) (by decide) rfl

/-- C6: a run never produces more than max_assignments assignments, and
with the bound 0 the assignment sequence is empty whatever the items,
workers and seeded loads. -/
theorem claim_C6 :
    ∀ (c : Issue → String → Bool) (workload : String → Nat) (issues : List Issue)
      (interns : List Worker) (maxA : Nat),
    (assign_tasks c workload issues interns maxA).1.length ≤ maxA ∧
    (maxA = 0 → (assign_tasks c workload issues interns maxA).1 = []) := by
  intro c workload issues interns maxA
  have h := assignLoop_length_le c (sortByRank issues) (interns.map (reseed workload)) 0 maxA
  constructor
  · simpa using h
  · intro h0
    subst h0
    have hz : (assign_tasks c workload issues interns 0).1.length = 0 := by
      have := assignLoop_length_le c (sortByRank issues) (interns.map (reseed workload)) 0 0
      simpa using this
    exact List.length_eq_zero.mp hz

/-- C6 witness: the zero bound on Scenario A inputs. -/
theorem claim_C6_witness :
    (assign_tasks alwaysCommit zeroLoad [itemI1] [workerA, workerB] 0).1.length ≤ 0 ∧
    (assign_tasks alwaysCommit zeroLoad [itemI1] [workerA, workerB] 0).1 = [] :=
  ⟨(claim_C6 alwaysCommit zeroLoad [itemI1] [workerA, workerB] 0).1,
   (claim_C6 alwaysCommit zeroLoad [itemI1] [workerA, workerB] 0).2 rfl⟩

/-- C7: an item whose best score over the capacity-available workers is
not positive, or with no available worker at all, is skipped with state
unchanged and the run continues; with every worker at full seeded
capacity the whole run returns no assignments and terminates normally;
and every produced assignment has a strictly positive score. -/
theorem claim_C7 :
    (∀ (c : Issue → String → Bool) (issue : Issue) (rest : List Issue)
       (interns : List Worker) (made maxA : Nat) (b : Option (Nat × Worker)) (s : ℚ),
      ¬ maxA ≤ made → findBest issue interns = (b, s) → s ≤ 0 →
      assignLoop c (issue :: rest) interns made maxA =
        assignLoop c rest interns made maxA) ∧
    (∀ (c : Issue → String → Bool) (workload : String → Nat) (issues : List Issue)
       (interns : List Worker) (maxA : Nat),
      (∀ w ∈ interns, w.max_tasks ≤ workload w.username) →
      assign_tasks c workload issues interns maxA =
        ([], interns.map (reseed workload), 0)) ∧
    (∀ (c : Issue → String → Bool) (workload : String → Nat) (issues : List Issue)
       (interns : List Worker) (maxA : Nat),
      ∀ a ∈ (assign_tasks c workload issues interns maxA).1, 0 < a.score) := by
  refine ⟨?_, ?_, ?_⟩
  · intro c issue rest interns made maxA b s h hfb hsle
    cases b with
    | none => exact assignLoop_skip_none c issue rest interns made maxA s h hfb
    | some p =>
      rcases p with ⟨i, w⟩
      exact assignLoop_skip_low c issue rest interns made maxA i w s h hfb (not_lt.mpr hsle)
  · intro c workload issues interns maxA hfull
    refine assignLoop_all_full c (sortByRank issues) (interns.map (reseed workload)) 0 maxA ?_
    intro z hz
    rcases List.mem_map.mp hz with ⟨w, hw, rfl⟩
    exact hfull w hw
  · intro c workload issues interns maxA a ha
    exact assignLoop_scores_pos c (sortByRank issues) (interns.map (reseed workload)) 0 maxA a ha

/-- C7 witness: with its only worker seeded at full capacity the run on
one item is empty and error-free. -/
theorem claim_C7_witness :
    assign_tasks alwaysCommit (fun _ => 1) [itemI1] [⟨"F", [], [], 1, 0⟩] 10 =
      ([], [⟨"F", [], [], 1, 1⟩], 0) := by
  rw [claim_C7.2.1 alwaysCommit (fun _ => 1) [itemI1] [⟨"F", [], [], 1, 0⟩] 10 (by decide)]
  decide

/-- C8: allocate is a pure function of its inputs, so equal runs give
equal outputs, and the per-item selection is the first-seen strict
maximum: the chosen worker sits at its reported index, is available,
scores the reported best, every candidate scores at most the best, and
every earlier candidate scores strictly less. -/
theorem claim_C8 :
    (∀ (c : Issue → String → Bool) (workload : String → Nat)
       (issues1 issues2 : List Issue) (interns1 interns2 : List Worker) (m1 m2 : Nat),
      issues1 = issues2 → interns1 = interns2 → m1 = m2 →
      assign_tasks c workload issues1 interns1 m1 =
        assign_tasks c workload issues2 interns2 m2) ∧
    (∀ (issue : Issue) (ws : List Worker) (i : Nat) (w : Worker) (s : ℚ),
      findBest issue ws = (some (i, w), s) →
      ws[i]? = some w ∧ w.current_tasks < w.max_tasks ∧
      s = calculate_task_score issue w ∧
      ∀ x ∈ availableScores issue 0 ws, x.2.2 ≤ s ∧ (x.1 < i → x.2.2 < s)) := by
  constructor
  · intro c workload issues1 issues2 interns1 interns2 m1 m2 h1 h2 h3
    rw [h1, h2, h3]
  · intro issue ws i w s h
    obtain ⟨hav, hidx, hsc⟩ := findBest_selects_available issue ws i w s h
    refine ⟨hidx, hav, hsc, ?_⟩
    intro x hx
    have hspec := firstMaxBy_spec (fun x => x.2.2) (fun x => x.1)
      (availableScores issue 0 ws) (availableScores_pairwise issue ws 0)
      (i, w, s) (findBest_some issue ws i w s h) x hx
    simpa using hspec

/-- C8 witness: the tie-break facts at the scarce-worker inputs. -/
theorem claim_C8_witness :
    ([scarceW, spareW][0]? = some scarceW) ∧
    scarceW.current_tasks < scarceW.max_tasks ∧
    (4 : ℚ) = calculate_task_score itemJ1 scarceW := by
  have h := claim_C8.2 itemJ1 [scarceW, spareW] 0 scarceW 4 (by decide)
  exact ⟨h.1, h.2.1, h.2.2.1⟩

/-- C9: suggest mode leaves the seeded ledger unchanged: with loads
seeded from the workload map, the intern states after the call are the
input states, and every load still equals its seeded value. -/
theorem claim_C9 :
    ∀ (workload : String → Nat) (issues : List Issue) (interns : List Worker),
    (∀ w ∈ interns, w.current_tasks = workload w.username) →
    (suggest_assignments workload issues interns).2 = interns ∧
    ∀ w ∈ (suggest_assignments workload issues interns).2,
      w.current_tasks = workload w.username := by
  intro workload issues interns h
  have he : (suggest_assignments workload issues interns).2 = interns :=
    suggestLoop_state workload issues interns h
  refine ⟨he, ?_⟩
  intro w hw
  rw [he] at hw
  exact h w hw

/-- C9 witness: suggest on Scenario A's worker leaves the ledger as
seeded. -/
theorem claim_C9_witness :
    (suggest_assignments zeroLoad [itemI1] [workerA]).2 = [workerA] :=
  (claim_C9 zeroLoad [itemI1] [workerA] (by decide)).1

/-- C10: the bound counts only successful commits: a failing commit adds
one attempt but leaves assignments and the success counter unchanged;
the instrumented loop projects onto the plain loop, successes stay
within the bound, and there is a run whose commit attempts exceed the
bound while its successes do not. -/
theorem claim_C10 :
    (∀ (c : Issue → String → Bool) (issue : Issue) (rest : List Issue)
       (interns : List Worker) (made maxA i : Nat) (w : Worker) (s : ℚ),
      ¬ maxA ≤ made → findBest issue interns = (some (i, w), s) → 0 < s →
      c issue w.username = false →
      assignLoopA c (issue :: rest) interns made maxA =
        ((assignLoopA c rest interns made maxA).1,
         (assignLoopA c rest interns made maxA).2.1,
         (assignLoopA c rest interns made maxA).2.2.1,
         (assignLoopA c rest interns made maxA).2.2.2 + 1)) ∧
    (∀ (c : Issue → String → Bool) (issues : List Issue) (interns : List Worker)
       (made maxA : Nat),
      (assignLoopA c issues interns made maxA).1 =
        (assignLoop c issues interns made maxA).1 ∧
      (assignLoopA c issues interns made maxA).2.1 =
        (assignLoop c issues interns made maxA).2.1 ∧
      (assignLoopA c issues interns made maxA).2.2.1 =
        (assignLoop c issues interns made maxA).2.2) ∧
    (∀ (c : Issue → String → Bool) (workload : String → Nat) (issues : List Issue)
       (interns : List Worker) (maxA : Nat),
      (assignLoopA c (sortByRank issues) (interns.map (reseed workload)) 0 maxA).1.length
        ≤ maxA) ∧
    (∃ (c : Issue → String → Bool) (issues : List Issue) (interns : List Worker)
       (maxA : Nat),
      maxA < (assignLoopA c issues interns 0 maxA).2.2.2 ∧
      (assignLoopA c issues interns 0 maxA).1.length ≤ maxA) := by
  refine ⟨assignLoopA_fail, assignLoopA_proj, ?_, ?_⟩
  · intro c workload issues interns maxA
    rw [(assignLoopA_proj c (sortByRank issues) (interns.map (reseed workload)) 0 maxA).1]
    simpa using assignLoop_length_le c (sortByRank issues) (interns.map (reseed workload)) 0 maxA
  · refine ⟨fun i _ => !(i == itemJ1), [itemJ1, itemJ2], [scarceW, spareW], 1, ?_, ?_⟩
    · decide
    · decide

/-- C10 witness: a failing commit on one item yields zero successes and
one attempt. -/
theorem claim_C10_witness :
    assignLoopA (fun _ _ => false) [itemJ1] [scarceW, spareW] 0 5 =
      ([], [scarceW, spareW], 0, 1) := by
  rw [claim_C10.1 (fun _ _ => false) itemJ1 [] [scarceW, spareW] 0 5 0 scarceW 4
    (by decide) (by decide) (by decide) rfl]
  decide
